import Mathlib

/-!
Verification of the `lock` password manager core (`src/lock.py`).

This development embeds the encrypted credential store of the repository —
the `PasswordManager` class of `lock.py` — as executable Lean definitions
and proves the specification claims about it.

Modelling conventions:

* Python `dict` values are modelled as association lists (`List (key × value)`)
  in insertion order, with lookup/insert/delete operations mirroring
  `d.get(k)`, `d[k] = v` and `del d[k]`.  A well-formed dict has pairwise
  distinct keys.
* `json.dumps(contents, separators=(',',':'), sort_keys=True)` is modelled by
  `encodeDb`, specialised to the `dict[str, dict[str, str]]` values the
  program serialises (the only values it is ever applied to).
* `json.loads` is modelled by `jsonLoads`, a character-level parser following
  CPython's scanner (`json/decoder.py` / `_json` C scanner): whitespace set
  `" \t\n\r"`, strings with the standard escapes and `\uXXXX` (surrogate
  pairs combined), `null`/`true`/`false`/`NaN`/`Infinity`/`-Infinity`,
  numbers (kept as lexemes), arrays and objects (duplicate keys: last value
  wins, first position kept, as `dict(pairs)` does).  Lean `String` holds
  Unicode scalar values, so JSON texts denoting lone surrogates — which
  CPython would accept — fall outside the modelled string type and are
  rejected by the model; no claim depends on them.  CPython's recursion
  limit on nesting is modelled by a fuel bound that is always sufficient
  for the texts the program itself produces.
* `nacl.secret.SecretBox` (XSalsa20-Poly1305) is modelled symbolically by
  its authenticated-encryption contract: `encrypt` produces a
  nonce-carrying sealed blob, `decrypt` recovers the plaintext exactly when
  the keys agree and fails (raises `CryptoError`, modelled as `none`)
  otherwise.  `hashlib.blake2b(password.encode(), digest_size=32)` is
  modelled as an ideal deterministic hash, represented by its input.
  Byte strings and their UTF-8 round trip through `.encode()`/`.decode()`
  are abstracted: plaintexts are carried as Lean strings.
* Ambient effects of the Python methods — `getpass` results, `input()`
  lines, the random nonce — are passed as explicit arguments;  file I/O on
  `database_path` is modelled by carrying the current file contents in the
  state.
-/

/-! ## Python dicts as association lists -/

/-- Lookup in an association list: `d.get(k)` on a Python dict (keys unique). -/
def assocGet {β α : Type} [DecidableEq β] : List (β × α) → β → Option α
  | [], _ => none
  | kv :: rest, k => if kv.1 = k then some kv.2 else assocGet rest k

/-- Assignment `d[k] = v` on a Python dict: replaces in place if the key is
present (keeping its position), else appends at the end. -/
def assocSet {β α : Type} [DecidableEq β] : List (β × α) → β → α → List (β × α)
  | [], k, v => [(k, v)]
  | kv :: rest, k, v => if kv.1 = k then (k, v) :: rest else kv :: assocSet rest k v

/-- Deletion `del d[k]` on a Python dict: removes the entry with the key. -/
def assocDel {β α : Type} [DecidableEq β] : List (β × α) → β → List (β × α)
  | [], _ => []
  | kv :: rest, k => if kv.1 = k then rest else kv :: assocDel rest k

/-- An entry value: a Python `dict[str, str]` of field name to field value. -/
abbrev Entry := List (String × String)

/-- The database: a Python `dict[str, dict[str, str]]` from entry name to entry. -/
abbrev Database := List (String × Entry)

/-- Well-formedness of a database as a Python dict of dicts: keys are unique
at both levels. -/
def WFdb (d : Database) : Prop :=
  (d.map Prod.fst).Nodup ∧ ∀ kv ∈ d, (kv.2.map Prod.fst).Nodup

instance : DecidablePred WFdb := fun _ => by unfold WFdb; infer_instance

/-! ## Key order used by `sort_keys=True`

Python's `sorted` on `dict.items()` compares the string keys with `str`'s
`<`: lexicographic on code points, a proper prefix ordered first.
`charsLe` implements exactly that comparison. -/

/-- Code-point-lexicographic comparison of character lists (Python's string
order). -/
def charsLe : List Char → List Char → Bool
  | [], _ => true
  | _ :: _, [] => false
  | a :: as, b :: bs =>
    if a.toNat < b.toNat then true
    else if b.toNat < a.toNat then false
    else charsLe as bs

/-- Python's `<=` on strings. -/
def strLe (a b : String) : Prop := charsLe a.data b.data = true

/-- Order on key-value pairs by key, as used by `json.dumps(..., sort_keys=True)`. -/
def keyLe {α : Type} (a b : String × α) : Prop := strLe a.1 b.1

instance {α : Type} : DecidableRel (keyLe (α := α)) := fun a b =>
  inferInstanceAs (Decidable (charsLe a.1.data b.1.data = true))

theorem char_eq_of_toNat_eq {a b : Char} (h : a.toNat = b.toNat) : a = b := by
  apply Char.eq_of_val_eq
  apply UInt32.eq_of_toBitVec_eq
  apply BitVec.eq_of_toNat_eq
  exact h

theorem charsLe_total : ∀ as bs : List Char, charsLe as bs = true ∨ charsLe bs as = true
  | [], _ => by left; rfl
  | _ :: _, [] => by right; rfl
  | a :: as, b :: bs => by
    rcases Nat.lt_trichotomy a.toNat b.toNat with h | h | h
    · left
      simp [charsLe, h]
    · have hab : a = b := char_eq_of_toNat_eq h
      subst hab
      rcases charsLe_total as bs with ih | ih
      · left
        simp [charsLe, ih]
      · right
        simp [charsLe, ih]
    · right
      simp [charsLe, h]

theorem charsLe_trans : ∀ as bs cs : List Char,
    charsLe as bs = true → charsLe bs cs = true → charsLe as cs = true
  | [], _, _ => fun _ _ => rfl
  | _ :: _, [], _ => fun h _ => by simp [charsLe] at h
  | _ :: _, _ :: _, [] => fun _ h => by simp [charsLe] at h
  | a :: as, b :: bs, c :: cs => fun h₁ h₂ => by
    by_cases hab : a.toNat < b.toNat
    · by_cases hbc : b.toNat < c.toNat
      · simp [charsLe, show a.toNat < c.toNat by omega]
      · by_cases hcb : c.toNat < b.toNat
        · simp [charsLe, hcb, show ¬b.toNat < c.toNat from hcb.asymm] at h₂
        · have : b.toNat = c.toNat := by omega
          simp [charsLe, show a.toNat < c.toNat by omega]
    · by_cases hba : b.toNat < a.toNat
      · simp [charsLe, hab, hba] at h₁
      · have hab' : a.toNat = b.toNat := by omega
        by_cases hbc : b.toNat < c.toNat
        · simp [charsLe, show a.toNat < c.toNat by omega]
        · by_cases hcb : c.toNat < b.toNat
          · simp [charsLe, hcb, show ¬b.toNat < c.toNat from hcb.asymm] at h₂
          · have hbc' : b.toNat = c.toNat := by omega
            simp only [charsLe, if_neg hab, if_neg hba] at h₁
            simp only [charsLe, if_neg hbc, if_neg hcb] at h₂
            simp only [charsLe, if_neg (show ¬a.toNat < c.toNat by omega),
              if_neg (show ¬c.toNat < a.toNat by omega)]
            exact charsLe_trans as bs cs h₁ h₂

theorem charsLe_antisymm : ∀ as bs : List Char,
    charsLe as bs = true → charsLe bs as = true → as = bs
  | [], [] => fun _ _ => rfl
  | [], _ :: _ => fun _ h => by simp [charsLe] at h
  | _ :: _, [] => fun h _ => by simp [charsLe] at h
  | a :: as, b :: bs => fun h₁ h₂ => by
    by_cases hab : a.toNat < b.toNat
    · simp [charsLe, hab, hab.asymm] at h₂
    · by_cases hba : b.toNat < a.toNat
      · simp [charsLe, hab, hba] at h₁
      · have : a = b := char_eq_of_toNat_eq (by omega)
        subst this
        simp only [charsLe, if_neg hab, if_neg hba] at h₁ h₂
        rw [charsLe_antisymm as bs h₁ h₂]

theorem strLe_antisymm {a b : String} (h₁ : strLe a b) (h₂ : strLe b a) : a = b := by
  cases a with
  | mk da =>
    cases b with
    | mk db =>
      have : da = db := charsLe_antisymm da db h₁ h₂
      rw [this]

instance {α : Type} : IsTotal (String × α) keyLe :=
  ⟨fun a b => charsLe_total a.1.data b.1.data⟩

instance {α : Type} : IsTrans (String × α) keyLe :=
  ⟨fun a b c h₁ h₂ => charsLe_trans a.1.data b.1.data c.1.data h₁ h₂⟩

/-- Sorting of a dict's items by key, as `json.dumps(..., sort_keys=True)` does. -/
def sortPairs {α : Type} (l : List (String × α)) : List (String × α) :=
  List.insertionSort keyLe l

/-! ## Canonical JSON encoding (`json.dumps` with `separators=(',',':')`,
`sort_keys=True`, default `ensure_ascii=True`) -/

/-- Lowercase hex digit, as produced by CPython's `"\\u%04x"` formatting. -/
def hexDigitChar (n : Nat) : Char :=
  if n < 10 then Char.ofNat (48 + n) else Char.ofNat (87 + n)

/-- Four lowercase hex digits of a number below `0x10000`. -/
def toHex4 (n : Nat) : List Char :=
  [hexDigitChar (n / 4096 % 16), hexDigitChar (n / 256 % 16),
   hexDigitChar (n / 16 % 16), hexDigitChar (n % 16)]

/-- Escaping of one character inside a JSON string literal, following
CPython's `py_encode_basestring_ascii`: the two-character escapes for
backslash, quote, backspace, form feed, newline, carriage return and tab;
`\uXXXX` for other control characters and all non-ASCII characters
(surrogate pairs above `0xFFFF`); printable ASCII unchanged. -/
def escapeChar (c : Char) : List Char :=
  if c = '\\' then ['\\', '\\']
  else if c = '"' then ['\\', '"']
  else if c = '\x08' then ['\\', 'b']
  else if c = '\x0c' then ['\\', 'f']
  else if c = '\n' then ['\\', 'n']
  else if c = '\r' then ['\\', 'r']
  else if c = '\t' then ['\\', 't']
  else if c.toNat < 0x20 ∨ 0x7e < c.toNat then
    if c.toNat < 0x10000 then
      '\\' :: 'u' :: toHex4 c.toNat
    else
      '\\' :: 'u' :: toHex4 (0xd800 + (c.toNat - 0x10000) / 0x400) ++
        '\\' :: 'u' :: toHex4 (0xdc00 + (c.toNat - 0x10000) % 0x400)
  else [c]

/-- JSON string literal for a Lean string (characters escaped, quotes added). -/
def encodeJStringL (s : String) : List Char :=
  '"' :: (s.data.map escapeChar).flatten ++ ['"']

/-- One `"key":value` member of a JSON object. -/
def memberEnc {α : Type} (encV : α → List Char) (kv : String × α) : List Char :=
  encodeJStringL kv.1 ++ ':' :: encV kv.2

/-- Members of a JSON object joined by `','` (the item separator of
`separators=(',',':')`). -/
def membersEnc {α : Type} (encV : α → List Char) : List (String × α) → List Char
  | [] => []
  | [kv] => memberEnc encV kv
  | kv :: rest => memberEnc encV kv ++ ',' :: membersEnc encV rest

/-- Encoding of one entry (`dict[str, str]`), fields sorted by name. -/
def encodeEntryL (e : Entry) : List Char :=
  '\x7b' :: membersEnc encodeJStringL (sortPairs e) ++ ['\x7d']

/-- Encoding of the whole database, entries sorted by name: the plaintext of
`json.dumps(self.contents, separators=(',', ':'), sort_keys=True)`. -/
def encodeDbL (d : Database) : List Char :=
  '\x7b' :: membersEnc encodeEntryL (sortPairs d) ++ ['\x7d']

/-- String form of the canonical database encoding. -/
def encodeDb (d : Database) : String := ⟨encodeDbL d⟩

/-! ## The `json.loads` model -/

/-- JSON values as returned by `json.loads`.  Numbers are kept as their
source lexemes: the program never stores numbers, so their `int`/`float`
conversion is irrelevant to every claim. -/
inductive Json where
  | null
  | bool (b : Bool)
  | num (lexeme : String)
  | str (s : String)
  | arr (items : List Json)
  | obj (members : List (String × Json))

/-- JSON whitespace, CPython's `WHITESPACE_STR = ' \t\n\r'`. -/
def isWs (c : Char) : Bool :=
  c = ' ' || c = '\t' || c = '\n' || c = '\r'

/-- Skip JSON whitespace. -/
def skipWs : List Char → List Char
  | [] => []
  | c :: rest => if isWs c then skipWs rest else c :: rest

/-- Value of one hex digit (`\uXXXX` escapes accept both cases). -/
def hexVal (c : Char) : Option Nat :=
  if '0' ≤ c ∧ c ≤ '9' then some (c.toNat - 48)
  else if 'a' ≤ c ∧ c ≤ 'f' then some (c.toNat - 87)
  else if 'A' ≤ c ∧ c ≤ 'F' then some (c.toNat - 55)
  else none

/-- Combined value of four hex digits of a `\uXXXX` escape. -/
def hexVal4 (a b c d : Char) : Option Nat :=
  (hexVal a).bind fun ha =>
    (hexVal b).bind fun hb =>
      (hexVal c).bind fun hc =>
        (hexVal d).map fun hd2 => ((ha * 16 + hb) * 16 + hc) * 16 + hd2

mutual

/-- Body of a JSON string literal after the opening quote, following
CPython's `py_scanstring` with `strict=True`: raw control characters are
rejected, the eight simple escapes and `\uXXXX` are decoded (in
`parseEscape`), and a high surrogate escape followed by a low surrogate
escape is combined (in `parseLowSurrogate`).  A lone surrogate escape (kept
verbatim by CPython) denotes no Unicode scalar and is rejected by the model
(see the header note). -/
def parseStringLoop : List Char → List Char → Option (List Char × List Char)
  | _, [] => none
  | acc, c :: rest =>
    if c = '"' then some (acc.reverse, rest)
    else if c = '\\' then parseEscape acc rest
    else if c.toNat < 0x20 then none
    else parseStringLoop (c :: acc) rest
termination_by _ l => l.length
decreasing_by all_goals (simp; try omega)

/-- An escape sequence after a backslash inside a JSON string literal. -/
def parseEscape : List Char → List Char → Option (List Char × List Char)
  | _, [] => none
  | acc, e :: r =>
    if e = '"' then parseStringLoop ('"' :: acc) r
    else if e = '\\' then parseStringLoop ('\\' :: acc) r
    else if e = '/' then parseStringLoop ('/' :: acc) r
    else if e = 'b' then parseStringLoop ('\x08' :: acc) r
    else if e = 'f' then parseStringLoop ('\x0c' :: acc) r
    else if e = 'n' then parseStringLoop ('\n' :: acc) r
    else if e = 'r' then parseStringLoop ('\r' :: acc) r
    else if e = 't' then parseStringLoop ('\t' :: acc) r
    else if e = 'u' then parseUEscape acc r
    else none
termination_by _ l => l.length
decreasing_by all_goals (simp; try omega)

/-- The four hex digits after `\u`; a high surrogate value demands a
following low surrogate escape. -/
def parseUEscape : List Char → List Char → Option (List Char × List Char)
  | acc, a :: b :: c2 :: d :: r2 =>
    match hexVal4 a b c2 d with
    | none => none
    | some n =>
      if 0xd800 ≤ n ∧ n < 0xdc00 then parseLowSurrogate acc n r2
      else if 0xdc00 ≤ n ∧ n < 0xe000 then none
      else parseStringLoop (Char.ofNat n :: acc) r2
  | _, _ => none
termination_by _ l => l.length
decreasing_by all_goals (simp; try omega)

/-- The low surrogate escape following a high surrogate `\uXXXX`; the two
values are combined into one code point. -/
def parseLowSurrogate : List Char → Nat → List Char → Option (List Char × List Char)
  | acc, n, e2 :: u2 :: a2 :: b2 :: c3 :: d2 :: r3 =>
    if e2 = '\\' ∧ u2 = 'u' then
      match hexVal4 a2 b2 c3 d2 with
      | none => none
      | some m =>
        if 0xdc00 ≤ m ∧ m < 0xe000 then
          parseStringLoop
            (Char.ofNat (0x10000 + (n - 0xd800) * 0x400 + (m - 0xdc00)) :: acc) r3
        else none
    else none
  | _, _, _ => none
termination_by _ _ l => l.length
decreasing_by all_goals (simp; try omega)

end

/-- Longest prefix of decimal digits. -/
def takeDigits : List Char → List Char × List Char
  | [] => ([], [])
  | c :: rest =>
    if '0' ≤ c ∧ c ≤ '9' then
      let p := takeDigits rest
      (c :: p.1, p.2)
    else ([], c :: rest)

/-- Integer part of CPython's `NUMBER_RE`: `0` or a nonzero digit followed by
digits. -/
def parseIntPart : List Char → Option (List Char × List Char)
  | [] => none
  | c :: rest =>
    if c = '0' then some (['0'], rest)
    else if '1' ≤ c ∧ c ≤ '9' then
      let p := takeDigits rest
      some (c :: p.1, p.2)
    else none

/-- Optional fraction part `(\.\d+)?`. -/
def parseFrac : List Char → List Char × List Char
  | '.' :: rest =>
    match takeDigits rest with
    | ([], _) => ([], '.' :: rest)
    | (ds, r) => ('.' :: ds, r)
  | s => ([], s)

/-- Optional exponent part `([eE][-+]?\d+)?`. -/
def parseExp : List Char → List Char × List Char
  | c :: rest =>
    if c = 'e' ∨ c = 'E' then
      match rest with
      | s :: rest2 =>
        if s = '+' ∨ s = '-' then
          match takeDigits rest2 with
          | ([], _) => ([], c :: rest)
          | (ds, r) => (c :: s :: ds, r)
        else
          match takeDigits rest with
          | ([], _) => ([], c :: rest)
          | (ds, r) => (c :: ds, r)
      | [] => ([], [c])
    else ([], c :: rest)
  | [] => ([], [])

/-- A JSON number lexeme per CPython's `NUMBER_RE`. -/
def parseNumber (s : List Char) : Option (List Char × List Char) :=
  match s with
  | '-' :: rest =>
    (parseIntPart rest).map fun p =>
      let f := parseFrac p.2
      let e := parseExp f.2
      ('-' :: p.1 ++ f.1 ++ e.1, e.2)
  | _ =>
    (parseIntPart s).map fun p =>
      let f := parseFrac p.2
      let e := parseExp f.2
      (p.1 ++ f.1 ++ e.1, e.2)

/-- Match a literal word (used for `null`, `true`, `false`, `NaN`,
`Infinity`), returning the remaining input. -/
def matchLit : List Char → List Char → Option (List Char)
  | [], s => some s
  | _ :: _, [] => none
  | c :: cs, x :: xs => if x = c then matchLit cs xs else none

mutual

/-- One JSON value at the current position (no leading whitespace expected),
following CPython's `scan_once`.  The fuel bounds the recursion of the
scanner (CPython raises `RecursionError` past its recursion limit); every
call site supplies fuel that is sufficient for any text the program itself
produces. -/
def parseValue : Nat → List Char → Option (Json × List Char)
  | 0, _ => none
  | f + 1, s =>
    match s with
    | [] => none
    | c :: rest =>
      if c = '\x7b' then
        match skipWs rest with
        | [] => none
        | c2 :: r =>
          if c2 = '\x7d' then some (.obj [], r)
          else parseMembers f [] (c2 :: r)
      else if c = '[' then
        match skipWs rest with
        | [] => none
        | c2 :: r =>
          if c2 = ']' then some (.arr [], r)
          else parseItems f [] (c2 :: r)
      else if c = '"' then (parseStringLoop [] rest).map fun p => (.str ⟨p.1⟩, p.2)
      else if c = 'n' then
        match matchLit ['u', 'l', 'l'] rest with
        | some r => some (.null, r)
        | none => none
      else if c = 't' then
        match matchLit ['r', 'u', 'e'] rest with
        | some r => some (.bool true, r)
        | none => none
      else if c = 'f' then
        match matchLit ['a', 'l', 's', 'e'] rest with
        | some r => some (.bool false, r)
        | none => none
      else if c = 'N' then
        match matchLit ['a', 'N'] rest with
        | some r => some (.num "NaN", r)
        | none => none
      else if c = 'I' then
        match matchLit ['n', 'f', 'i', 'n', 'i', 't', 'y'] rest with
        | some r => some (.num "Infinity", r)
        | none => none
      else if c = '-' then
        match matchLit ['I', 'n', 'f', 'i', 'n', 'i', 't', 'y'] rest with
        | some r => some (.num "-Infinity", r)
        | none => (parseNumber (c :: rest)).map fun p => (.num ⟨p.1⟩, p.2)
      else (parseNumber (c :: rest)).map fun p => (.num ⟨p.1⟩, p.2)

/-- Members of a JSON object after `{` (whitespace already skipped, the
empty object already handled): a quoted key, `:`, a value, then `,` and more
members or `}`.  Pairs are accumulated as `dict(pairs)` does: a duplicate
key keeps its first position and takes its last value. -/
def parseMembers : Nat → List (String × Json) → List Char → Option (Json × List Char)
  | 0, _, _ => none
  | f + 1, acc, s =>
    match s with
    | [] => none
    | c :: rest =>
      if c = '"' then
        match parseStringLoop [] rest with
        | none => none
        | some (key, r1) =>
          match skipWs r1 with
          | [] => none
          | c2 :: r2 =>
            if c2 = ':' then
              match parseValue f (skipWs r2) with
              | none => none
              | some (v, r3) =>
                match skipWs r3 with
                | [] => none
                | c3 :: r4 =>
                  if c3 = ',' then parseMembers f (assocSet acc ⟨key⟩ v) (skipWs r4)
                  else if c3 = '\x7d' then some (.obj (assocSet acc ⟨key⟩ v), r4)
                  else none
            else none
      else none

/-- Items of a JSON array after `[` (whitespace already skipped, the empty
array already handled). -/
def parseItems : Nat → List Json → List Char → Option (Json × List Char)
  | 0, _, _ => none
  | f + 1, acc, s =>
    match parseValue f s with
    | none => none
    | some (v, r1) =>
      match skipWs r1 with
      | [] => none
      | c2 :: r2 =>
        if c2 = ',' then parseItems f (acc ++ [v]) (skipWs r2)
        else if c2 = ']' then some (.arr (acc ++ [v]), r2)
        else none

end

/-- The `json.loads` model: skip surrounding whitespace, parse one value,
fail on trailing garbage (`Extra data`).  `none` models a raised
`json.JSONDecodeError`. -/
def jsonLoads (s : String) : Option Json :=
  match parseValue (3 * s.data.length + 8) (skipWs s.data) with
  | some (v, rest) => if skipWs rest = [] then some v else none
  | none => none

/-- Structural read-back of a `json.loads` result as an entry (a mapping of
strings to strings); part of `toDatabase`.  Neither function is an operation
of the source program (which performs no validation); they are the bridge
used to compare decoded contents with `Database` values. -/
def toEntry (j : Json) : Option Entry :=
  match j with
  | .obj fields =>
    fields.foldr (fun fv acc =>
      match acc, fv.2 with
      | some e, .str v => some ((fv.1, v) :: e)
      | _, _ => none) (some [])
  | _ => none

def toDatabase (j : Json) : Option Database :=
  match j with
  | .obj members =>
    members.foldr (fun kv acc =>
      match acc, toEntry kv.2 with
      | some d, some e => some ((kv.1, e) :: d)
      | _, _ => none) (some [])
  | _ => none

/-- Image of an entry in `Json`. -/
def entryToJson (e : Entry) : Json :=
  .obj (e.map fun kv => (kv.1, .str kv.2))

/-- Image of a database in `Json`. -/
def dbToJson (d : Database) : Json :=
  .obj (d.map fun kv => (kv.1, entryToJson kv.2))

/-- The canonical (key-sorted, at both levels) form of a database: the
mapping that `json.loads` recovers from the canonical encoding. -/
def canonDb (d : Database) : Database :=
  (sortPairs d).map fun kv => (kv.1, sortPairs kv.2)

/-! ## Key derivation and the cipher (`hashlib.blake2b`, `nacl.secret.SecretBox`) -/

/-- A 32-byte symmetric key.  `hashlib.blake2b(password.encode(),
digest_size=32).digest()` is a deterministic function of the passphrase;
the model idealises it as collision-free and represents the digest by the
passphrase it was derived from. -/
structure Key where
  digest : String
deriving DecidableEq

/-- The key derivation of `PasswordManager.__init__` (line 38). -/
def deriveKey (password : String) : Key := ⟨password⟩

/-- A sealed blob as produced by `SecretBox.encrypt`: nonce and
authenticated ciphertext in one buffer.  The model is symbolic: the blob
determines (key, nonce, plaintext), and authentication makes any decryption
under a different key fail. -/
structure Sealed where
  key : Key
  nonce : Nat
  plaintext : String
deriving DecidableEq

/-- `box.encrypt(plaintext)` with the random nonce made explicit. -/
def sealBox (key : Key) (nonce : Nat) (plaintext : String) : Sealed :=
  ⟨key, nonce, plaintext⟩

/-- `box.decrypt(blob)`: returns the plaintext when the authentication tag
verifies (same key), else fails with `nacl.exceptions.CryptoError`,
modelled as `none`. -/
def openBox (key : Key) (blob : Sealed) : Option String :=
  if blob.key = key then some blob.plaintext else none

/-! ## The `PasswordManager` store -/

/-- The business-rule exceptions of `lock.py`. -/
inductive OpError where
  | entryExists (name : String)
  | entryDoesNotExist (name : String)
deriving DecidableEq

/-- Failures of `PasswordManager.__init__`:
`emptyPassword` models the `sys.exit(1)` after an empty prompted password
(lines 35-37); `cryptoError` models `nacl.exceptions.CryptoError` escaping
from `box.decrypt` (line 48); `jsonError` models a `json.JSONDecodeError`
escaping from `json.loads` (line 49, uncaught in the source). -/
inductive InitError where
  | emptyPassword
  | cryptoError
  | jsonError
deriving DecidableEq

/-- Python's `str.lower()` as used by `delete` to normalise the
confirmation reply (compared only against the ASCII words `'y'`/`'yes'`,
for which ASCII lowercasing is exact). -/
def strLower (s : String) : String := ⟨s.data.map Char.toLower⟩

/-- The state of an open `PasswordManager`: the derived key (`self.box`),
the in-memory contents (`self.contents`) and the current contents of the
file at `database_path`.  The `gui` flag only switches `print` calls on or
off and is omitted. -/
structure PasswordManager where
  box : Key
  contents : Database
  file : Sealed
deriving DecidableEq

namespace PasswordManager

/-- Steps of `__init__` after a key is fixed (lines 38-49): bootstrap a
missing database file by sealing the literal `'{}'`, then read, decrypt and
`json.loads` the blob.  Returns the key, the resulting file contents and
the decoded (unvalidated!) contents. -/
def initWithKey (key : Key) (existing : Option Sealed) (nonce : Nat) :
    Except InitError (Key × Sealed × Json) :=
  let file := match existing with
    | none => sealBox key nonce "\x7b\x7d"
    | some f => f
  match openBox key file with
  | none => .error .cryptoError
  | some plaintext =>
    match jsonLoads plaintext with
    | none => .error .jsonError
    | some j => .ok (key, file, j)

/-- `__init__(database_path, gui, password)` (lines 31-49).  `password` is
the explicit argument (`some pw`: the GUI/test path); when it is `none` the
CLI prompts via `getpass`, whose result is `promptedPassword`, and only
this prompted path rejects an empty passphrase.  `existing` is the current
file at `database_path` (`none`: no such file), `nonce` the random nonce
used if a fresh database is written. -/
def init (password : Option String) (promptedPassword : String)
    (existing : Option Sealed) (nonce : Nat) :
    Except InitError (Key × Sealed × Json) :=
  match password with
  | none =>
    if promptedPassword = "" then .error .emptyPassword
    else initWithKey (deriveKey promptedPassword) existing nonce
  | some pw => initWithKey (deriveKey pw) existing nonce

/-- The persist step shared by `create`/`update`/`delete` (lines 74-77,
102-105, 117-120): `json.dumps` the contents, encrypt under `self.box`
with a fresh `nonce`, write the blob over `database_path`. -/
def persist (pm : PasswordManager) (contents : Database) (nonce : Nat) :
    PasswordManager :=
  { pm with contents, file := sealBox pm.box nonce (encodeDb contents) }

/-- `read_entry_value` (lines 51-66): `getpass` collects `password`, then a
loop over `input()` lines (modelled by `inputs`) collects further fields.
An empty name or an empty definition ends the loop; the name `'Password'`
is skipped with a message.  `none` models `input()` raising `EOFError` when
the stream is exhausted. -/
def read_entry_value (password : String) (inputs : List String) : Option Entry :=
  go [("Password", password)] inputs
where
  /-- The `while True` loop of `read_entry_value`. -/
  go : Entry → List String → Option Entry
    | _, [] => none
    | acc, name :: rest =>
      if name = "" then some acc
      else if name = "Password" then go acc rest
      else match rest with
        | [] => none
        | defn :: rest2 =>
          if defn = "" then some acc
          else go (assocSet acc name defn) rest2

/-- `create(entry_key, entry_value)` (lines 68-77).  The result pairs the
object state at return (or at the raise) with the raised exception, if any;
the outer `Option` is `none` when the interactive `read_entry_value` dies
of `EOFError`. -/
def create (pm : PasswordManager) (entry_key : String) (entry_value : Option Entry)
    (password : String) (inputs : List String) (nonce : Nat) :
    Option (PasswordManager × Option OpError) :=
  if (assocGet pm.contents entry_key).isSome then
    some (pm, some (.entryExists entry_key))
  else
    match entry_value with
    | some v => some (persist pm (assocSet pm.contents entry_key v) nonce, none)
    | none =>
      (read_entry_value password inputs).map fun v =>
        (persist pm (assocSet pm.contents entry_key v) nonce, none)

/-- `read(entry_key)` (lines 79-94): with no name, returns the full
contents; with a name, returns the singleton dict wrapping the entry, or
raises `EntryDoesNotExistError`.  The state at return is part of the result
to make frame properties explicit. -/
def read (pm : PasswordManager) (entry_key : Option String) :
    PasswordManager × Except OpError Database :=
  match entry_key with
  | none => (pm, .ok pm.contents)
  | some k =>
    match assocGet pm.contents k with
    | none => (pm, .error (.entryDoesNotExist k))
    | some v => (pm, .ok [(k, v)])

/-- `update(entry_key, entry_value)` (lines 96-105): like `create` with the
existence check reversed; the entry value is replaced entirely. -/
def update (pm : PasswordManager) (entry_key : String) (entry_value : Option Entry)
    (password : String) (inputs : List String) (nonce : Nat) :
    Option (PasswordManager × Option OpError) :=
  if (assocGet pm.contents entry_key).isNone then
    some (pm, some (.entryDoesNotExist entry_key))
  else
    match entry_value with
    | some v => some (persist pm (assocSet pm.contents entry_key v) nonce, none)
    | none =>
      (read_entry_value password inputs).map fun v =>
        (persist pm (assocSet pm.contents entry_key v) nonce, none)

/-- `delete(entry_key, interactive)` (lines 107-122): after the existence
check, when `interactive` the method itself prompts `'Are you sure ...'`
and proceeds only on `'y'`/`'yes'` (case-insensitive, `reply` models the
`input()` line); otherwise the reply is forced to `'y'`. -/
def delete (pm : PasswordManager) (entry_key : String) (interactive : Bool)
    (reply : String) (nonce : Nat) : PasswordManager × Option OpError :=
  if (assocGet pm.contents entry_key).isNone then
    (pm, some (.entryDoesNotExist entry_key))
  else
    let r := if interactive then reply else "y"
    if strLower r = "yes" ∨ strLower r = "y" then
      (persist pm (assocDel pm.contents entry_key) nonce, none)
    else
      (pm, none)

end PasswordManager

/-- The on-disk/in-memory consistency invariant: decrypting the current
file contents with the store's key yields exactly the canonical JSON
encoding of the in-memory contents. -/
def SyncInv (pm : PasswordManager) : Prop :=
  openBox pm.box pm.file = some (encodeDb pm.contents)

instance : DecidablePred SyncInv := fun _ => by unfold SyncInv; infer_instance

/-! ## Object-identity model for `read()` (claim C8)

`read` with no name executes `return self.contents` (line 86): the caller
receives the very dict object the store owns, not a copy.  To state this,
dict objects are given identities on a small heap; `CentralWidget.__init__`
(line 130) stores this alias and `create_new_entry` (line 222) mutates it
in place. -/

/-- A heap of dict objects, each with a reference id. -/
abbrev Heap := List (Nat × Database)

/-- A `PasswordManager` as a heap client: `self.contents` is a reference. -/
structure PyPM where
  contentsRef : Nat

/-- `read()` with no name at the object level: `return self.contents`
returns the same reference (no copy is made). -/
def PyPM.readFull (pm : PyPM) : Nat := pm.contentsRef

/-- In-place mutation `d[k] = e` on the dict object behind reference `r`. -/
def heapSet (h : Heap) (r : Nat) (k : String) (e : Entry) : Heap :=
  h.map fun obj => if obj.1 = r then (obj.1, assocSet obj.2 k e) else obj

/-! ## Association list lemmas -/

section AssocLemmas

variable {β α : Type} [DecidableEq β]

theorem assocGet_eq_none_iff (l : List (β × α)) (k : β) :
    assocGet l k = none ↔ k ∉ l.map Prod.fst := by
  induction l with
  | nil => simp [assocGet]
  | cons kv rest ih =>
    by_cases h : kv.1 = k
    · simp [assocGet, h]
    · simp [assocGet, h, ih, Ne.symm h]

theorem assocGet_set_self (l : List (β × α)) (k : β) (v : α) :
    assocGet (assocSet l k v) k = some v := by
  induction l with
  | nil => simp [assocGet, assocSet]
  | cons kv rest ih =>
    by_cases h : kv.1 = k <;> simp [assocGet, assocSet, h, ih]

theorem assocGet_set_ne (l : List (β × α)) (k k' : β) (v : α) (h : k' ≠ k) :
    assocGet (assocSet l k v) k' = assocGet l k' := by
  induction l with
  | nil => simp [assocGet, assocSet, Ne.symm h]
  | cons kv rest ih =>
    by_cases hk : kv.1 = k
    · subst hk
      simp [assocGet, assocSet, Ne.symm h]
    · by_cases hk' : kv.1 = k' <;> simp [assocGet, assocSet, hk, hk', ih, h]

theorem assocSet_eq_append (l : List (β × α)) (k : β) (v : α)
    (h : k ∉ l.map Prod.fst) : assocSet l k v = l ++ [(k, v)] := by
  induction l with
  | nil => rfl
  | cons kv rest ih =>
    simp only [List.map_cons, List.mem_cons, not_or] at h
    simp [assocSet, Ne.symm h.1, ih h.2]

theorem assocGet_del_self (l : List (β × α)) (k : β)
    (nd : (l.map Prod.fst).Nodup) : assocGet (assocDel l k) k = none := by
  induction l with
  | nil => rfl
  | cons kv rest ih =>
    simp only [List.map_cons, List.nodup_cons] at nd
    by_cases h : kv.1 = k
    · subst h
      simpa [assocDel, assocGet_eq_none_iff] using nd.1
    · simp [assocDel, assocGet, h, ih nd.2]

theorem assocGet_del_ne (l : List (β × α)) (k k' : β) (h : k' ≠ k) :
    assocGet (assocDel l k) k' = assocGet l k' := by
  induction l with
  | nil => rfl
  | cons kv rest ih =>
    by_cases hk : kv.1 = k
    · subst hk
      simp [assocDel, assocGet, Ne.symm h]
    · by_cases hk' : kv.1 = k' <;> simp [assocDel, assocGet, hk, hk', ih, h]

theorem assocGet_map_value {γ : Type} (l : List (β × α)) (f : α → γ) (k : β) :
    assocGet (l.map fun kv => (kv.1, f kv.2)) k = (assocGet l k).map f := by
  induction l with
  | nil => rfl
  | cons kv rest ih =>
    by_cases h : kv.1 = k <;> simp [assocGet, h, ih]

theorem assocGet_perm {l l' : List (β × α)} (h : l.Perm l')
    (nd : (l.map Prod.fst).Nodup) (k : β) : assocGet l k = assocGet l' k := by
  revert nd
  induction h with
  | nil => intro _; rfl
  | cons x h ih =>
    intro nd
    simp only [List.map_cons, List.nodup_cons] at nd
    by_cases hx : x.1 = k <;> simp [assocGet, hx, ih nd.2]
  | swap x y l =>
    intro nd
    simp only [List.map_cons, List.nodup_cons, List.mem_cons] at nd
    have hxy : y.1 ≠ x.1 := fun hh => nd.1 (Or.inl hh)
    by_cases hy : y.1 = k
    · subst hy
      simp [assocGet, hxy.symm]
    · by_cases hx : x.1 = k <;> simp [assocGet, hx, hy]
  | trans h₁ h₂ ih₁ ih₂ =>
    intro nd
    have nd₂ := ((h₁.map Prod.fst).nodup_iff).mp nd
    exact (ih₁ nd).trans (ih₂ nd₂)

end AssocLemmas

/-! ## Sorting lemmas -/

section SortLemmas

variable {α : Type}

theorem sortPairs_perm (l : List (String × α)) : (sortPairs l).Perm l :=
  List.perm_insertionSort keyLe l

theorem sortPairs_sorted (l : List (String × α)) :
    List.Sorted keyLe (sortPairs l) :=
  List.sorted_insertionSort keyLe l

theorem sortPairs_keys_nodup (l : List (String × α))
    (nd : (l.map Prod.fst).Nodup) : ((sortPairs l).map Prod.fst).Nodup :=
  (((sortPairs_perm l).map Prod.fst).nodup_iff).mpr nd

theorem assocGet_sortPairs (l : List (String × α)) (k : String)
    (nd : (l.map Prod.fst).Nodup) : assocGet (sortPairs l) k = assocGet l k :=
  assocGet_perm (sortPairs_perm l) (sortPairs_keys_nodup l nd) k

/-- Two key-sorted association lists with unique keys that are permutations
of each other are equal. -/
theorem sorted_nodupKeys_perm_eq {l₁ l₂ : List (String × α)}
    (s₁ : List.Sorted keyLe l₁) (s₂ : List.Sorted keyLe l₂)
    (p : l₁.Perm l₂) (nd : (l₁.map Prod.fst).Nodup) : l₁ = l₂ := by
  induction l₁ generalizing l₂ with
  | nil => exact (p.nil_eq).symm ▸ rfl
  | cons a t₁ ih =>
    cases l₂ with
    | nil => exact absurd p.symm.nil_eq (by simp)
    | cons b t₂ =>
      simp only [List.map_cons, List.nodup_cons] at nd
      have hab : a = b := by
        have ha : a ∈ b :: t₂ := p.mem_iff.mp (List.mem_cons_self a t₁)
        rcases List.mem_cons.mp ha with h | ha'
        · exact h
        · have hb : b ∈ a :: t₁ := p.symm.mem_iff.mp (List.mem_cons_self b t₂)
          rcases List.mem_cons.mp hb with h | hb'
          · exact h.symm
          · have h₁ : keyLe a b := List.rel_of_sorted_cons s₁ b hb'
            have h₂ : keyLe b a := List.rel_of_sorted_cons s₂ a ha'
            have hkey : a.1 = b.1 := strLe_antisymm h₁ h₂
            exact absurd (hkey ▸ (List.mem_map_of_mem Prod.fst hb')) nd.1
      subst hab
      have p' : t₁.Perm t₂ := p.cons_inv
      rw [ih s₁.of_cons s₂.of_cons p' nd.2]

/-- Canonicity of the sort: permuting a dict's items (with unique keys)
does not change the sorted item list. -/
theorem sortPairs_eq_of_perm {l₁ l₂ : List (String × α)} (p : l₁.Perm l₂)
    (nd : (l₁.map Prod.fst).Nodup) : sortPairs l₁ = sortPairs l₂ :=
  sorted_nodupKeys_perm_eq (sortPairs_sorted l₁) (sortPairs_sorted l₂)
    (((sortPairs_perm l₁).trans p).trans (sortPairs_perm l₂).symm)
    (sortPairs_keys_nodup l₁ nd)

end SortLemmas

/-! ## String-escape round trip -/

theorem char_valid (c : Char) :
    c.toNat < 0xd800 ∨ (0xdfff < c.toNat ∧ c.toNat < 0x110000) := c.valid

theorem hexVal_hexDigitChar (m : Nat) (h : m < 16) :
    hexVal (hexDigitChar m) = some m := by
  interval_cases m <;> decide

theorem hexVal4_toHex4 (n : Nat) (hn : n < 0x10000) :
    hexVal4 (hexDigitChar (n / 4096 % 16)) (hexDigitChar (n / 256 % 16))
      (hexDigitChar (n / 16 % 16)) (hexDigitChar (n % 16)) = some n := by
  unfold hexVal4
  rw [hexVal_hexDigitChar _ (Nat.mod_lt _ (by norm_num)),
    hexVal_hexDigitChar _ (Nat.mod_lt _ (by norm_num)),
    hexVal_hexDigitChar _ (Nat.mod_lt _ (by norm_num)),
    hexVal_hexDigitChar _ (Nat.mod_lt _ (by norm_num))]
  simp
  omega

theorem parseStringLoop_u_scalar (acc tail : List Char) (n : Nat)
    (hn : n < 0x10000) (hns : ¬(0xd800 ≤ n ∧ n < 0xe000)) :
    parseStringLoop acc ('\\' :: 'u' :: (toHex4 n ++ tail)) =
      parseStringLoop (Char.ofNat n :: acc) tail := by
  have h1 : ¬(0xd800 ≤ n ∧ n < 0xdc00) := by omega
  have h2 : ¬(0xdc00 ≤ n ∧ n < 0xe000) := by omega
  simp only [toHex4, List.cons_append, List.nil_append]
  rw [parseStringLoop]
  simp only [Char.reduceEq, reduceIte]
  rw [parseEscape]
  simp only [Char.reduceEq, reduceIte]
  rw [parseUEscape, hexVal4_toHex4 n hn]
  simp only [h1, h2, reduceIte, if_false]

theorem parseStringLoop_u_pair (acc tail : List Char) (n m : Nat)
    (hn : 0xd800 ≤ n ∧ n < 0xdc00) (hm : 0xdc00 ≤ m ∧ m < 0xe000) :
    parseStringLoop acc
        ('\\' :: 'u' :: (toHex4 n ++ ('\\' :: 'u' :: (toHex4 m ++ tail)))) =
      parseStringLoop
        (Char.ofNat (0x10000 + (n - 0xd800) * 0x400 + (m - 0xdc00)) :: acc) tail := by
  have hn16 : n < 0x10000 := by omega
  have hm16 : m < 0x10000 := by omega
  simp only [toHex4, List.cons_append, List.nil_append]
  rw [parseStringLoop]
  simp only [Char.reduceEq, reduceIte]
  rw [parseEscape]
  simp only [Char.reduceEq, reduceIte]
  rw [parseUEscape, hexVal4_toHex4 n hn16]
  simp only [hn, and_self, reduceIte]
  rw [parseLowSurrogate]
  simp only [Char.reduceEq, and_self, reduceIte]
  rw [hexVal4_toHex4 m hm16]
  simp only [hm, and_self, reduceIte]

theorem parseStringLoop_escList (cs : List Char) : ∀ (acc rest : List Char),
    parseStringLoop acc ((cs.map escapeChar).flatten ++ '"' :: rest) =
      some (acc.reverse ++ cs, rest) := by
  induction cs with
  | nil =>
    intro acc rest
    simp only [List.map_nil, List.flatten_nil, List.nil_append]
    rw [parseStringLoop]
    simp
  | cons c cs ih =>
    intro acc rest
    simp only [List.map_cons, List.flatten_cons, List.append_assoc]
    by_cases h1 : c = '\\'
    · subst h1
      simp only [escapeChar, reduceIte, List.cons_append, List.nil_append]
      rw [parseStringLoop]
      simp only [Char.reduceEq, reduceIte]
      rw [parseEscape]
      simp only [Char.reduceEq, reduceIte, ih]
      simp
    · by_cases h2 : c = '"'
      · subst h2
        simp only [escapeChar, Char.reduceEq, reduceIte, List.cons_append, List.nil_append]
        rw [parseStringLoop]
        simp only [Char.reduceEq, reduceIte]
        rw [parseEscape]
        simp only [Char.reduceEq, reduceIte, ih]
        simp
      · by_cases h3 : c = '\x08'
        · subst h3
          simp only [escapeChar, Char.reduceEq, reduceIte, List.cons_append, List.nil_append]
          rw [parseStringLoop]
          simp only [Char.reduceEq, reduceIte]
          rw [parseEscape]
          simp only [Char.reduceEq, reduceIte, ih]
          simp
        · by_cases h4 : c = '\x0c'
          · subst h4
            simp only [escapeChar, Char.reduceEq, reduceIte, List.cons_append, List.nil_append]
            rw [parseStringLoop]
            simp only [Char.reduceEq, reduceIte]
            rw [parseEscape]
            simp only [Char.reduceEq, reduceIte, ih]
            simp
          · by_cases h5 : c = '\n'
            · subst h5
              simp only [escapeChar, Char.reduceEq, reduceIte, List.cons_append,
                List.nil_append]
              rw [parseStringLoop]
              simp only [Char.reduceEq, reduceIte]
              rw [parseEscape]
              simp only [Char.reduceEq, reduceIte, ih]
              simp
            · by_cases h6 : c = '\r'
              · subst h6
                simp only [escapeChar, Char.reduceEq, reduceIte, List.cons_append,
                  List.nil_append]
                rw [parseStringLoop]
                simp only [Char.reduceEq, reduceIte]
                rw [parseEscape]
                simp only [Char.reduceEq, reduceIte, ih]
                simp
              · by_cases h7 : c = '\t'
                · subst h7
                  simp only [escapeChar, Char.reduceEq, reduceIte, List.cons_append,
                    List.nil_append]
                  rw [parseStringLoop]
                  simp only [Char.reduceEq, reduceIte]
                  rw [parseEscape]
                  simp only [Char.reduceEq, reduceIte, ih]
                  simp
                · by_cases h8 : c.toNat < 0x20 ∨ 0x7e < c.toNat
                  · by_cases h9 : c.toNat < 0x10000
                    · have hns : ¬(0xd800 ≤ c.toNat ∧ c.toNat < 0xe000) := by
                        rcases char_valid c with h | h <;> omega
                      simp only [escapeChar, h1, h2, h3, h4, h5, h6, h7, h8, h9,
                        reduceIte, List.cons_append]
                      rw [parseStringLoop_u_scalar _ _ _ h9 hns, Char.ofNat_toNat, ih]
                      simp
                    · have hv : c.toNat < 0x110000 := by
                        rcases char_valid c with h | h <;> omega
                      have hn : 0xd800 ≤ 0xd800 + (c.toNat - 0x10000) / 0x400 ∧
                          0xd800 + (c.toNat - 0x10000) / 0x400 < 0xdc00 := by omega
                      have hm : 0xdc00 ≤ 0xdc00 + (c.toNat - 0x10000) % 0x400 ∧
                          0xdc00 + (c.toNat - 0x10000) % 0x400 < 0xe000 := by omega
                      simp only [escapeChar, h1, h2, h3, h4, h5, h6, h7, h8, h9,
                        reduceIte, List.cons_append, List.append_assoc, List.nil_append]
                      rw [parseStringLoop_u_pair _ _ _ _ hn hm]
                      have hc : 0x10000 + (0xd800 + (c.toNat - 0x10000) / 0x400 - 0xd800) * 0x400 +
                          (0xdc00 + (c.toNat - 0x10000) % 0x400 - 0xdc00) = c.toNat := by
                        omega
                      rw [hc, Char.ofNat_toNat, ih]
                      simp
                  · have h20 : ¬c.toNat < 0x20 := by omega
                    simp only [escapeChar, h1, h2, h3, h4, h5, h6, h7, h8,
                      reduceIte, List.cons_append, List.nil_append]
                    rw [parseStringLoop]
                    simp only [h1, h2, h20, reduceIte, ih]
                    simp

/-! ## Parsing the canonical encoding -/

theorem skipWs_cons (c : Char) (l : List Char) (h : isWs c = false) :
    skipWs (c :: l) = c :: l := by
  simp [skipWs, h]

theorem string_mk_data (s : String) : String.mk s.data = s := rfl

theorem parseValue_jstring (s : String) (rest : List Char) (f : Nat) :
    parseValue (1 + f) (encodeJStringL s ++ rest) = some (.str s, rest) := by
  have h1 : 1 + f = f + 1 := by omega
  rw [h1, encodeJStringL]
  simp only [List.cons_append, List.append_assoc, List.singleton_append]
  rw [parseValue]
  simp only [Char.reduceEq, reduceIte, parseStringLoop_escList, List.reverse_nil,
    List.nil_append, Option.map_some', string_mk_data]

/-- Fuel needed by `parseMembers` on the encoded members of `l`, given the
fuel `costV` needed for each value. -/
def costM {α : Type} (costV : α → Nat) (l : List (String × α)) : Nat :=
  (l.map fun kv => costV kv.2 + 2).sum

theorem costM_nil {α : Type} (costV : α → Nat) : costM costV [] = 0 := rfl

theorem costM_cons {α : Type} (costV : α → Nat) (kv : String × α)
    (l : List (String × α)) :
    costM costV (kv :: l) = costV kv.2 + 2 + costM costV l := by
  simp [costM]

theorem skipWs_membersEnc {α : Type} (encV : α → List Char)
    (l : List (String × α)) (hne : l ≠ []) (x : List Char) :
    skipWs (membersEnc encV l ++ x) = membersEnc encV l ++ x := by
  match l with
  | [kv] =>
    simp only [membersEnc, memberEnc, encodeJStringL, List.cons_append, List.append_assoc]
    exact skipWs_cons _ _ (by decide)
  | kv :: kv2 :: t =>
    simp only [membersEnc, memberEnc, encodeJStringL, List.cons_append, List.append_assoc]
    exact skipWs_cons _ _ (by decide)

theorem parseMembers_membersEnc {α : Type} (encV : α → List Char) (jV : α → Json)
    (costV : α → Nat) :
    ∀ (l : List (String × α)),
      (∀ kv ∈ l, ∀ (rest : List Char) (f : Nat),
        parseValue (costV kv.2 + f) (encV kv.2 ++ rest) = some (jV kv.2, rest)) →
      (∀ kv ∈ l, ∀ (r : List Char), skipWs (encV kv.2 ++ r) = encV kv.2 ++ r) →
      ∀ (acc : List (String × Json)) (rest : List Char) (f : Nat),
        l ≠ [] →
        (acc.map Prod.fst ++ l.map Prod.fst).Nodup →
        parseMembers (costM costV l + f) acc (membersEnc encV l ++ '\x7d' :: rest) =
          some (.obj (acc ++ l.map fun kv => (kv.1, jV kv.2)), rest) := by
  intro l
  induction l with
  | nil => intro _ _ _ _ _ hne _; exact absurd rfl hne
  | cons kv l ihl =>
    intro HV HW acc rest f _ hnd
    have hk_notin : kv.1 ∉ acc.map Prod.fst := by
      intro hmem
      exact (List.disjoint_of_nodup_append hnd) hmem (by simp)
    have hfuel : costM costV (kv :: l) + f = (costV kv.2 + (1 + (costM costV l + f))) + 1 := by
      rw [costM_cons]; omega
    rw [hfuel]
    cases l with
    | nil =>
      simp only [membersEnc, memberEnc, encodeJStringL, List.cons_append,
        List.append_assoc, List.singleton_append]
      rw [parseMembers]
      simp only [Char.reduceEq, reduceIte, parseStringLoop_escList, List.reverse_nil,
        List.nil_append, string_mk_data]
      rw [skipWs_cons _ _ (by decide)]
      simp only [Char.reduceEq, reduceIte]
      rw [HW kv (by simp), HV kv (by simp) _ (1 + (costM costV [] + f))]
      dsimp only
      rw [skipWs_cons _ _ (by decide)]
      simp only [Char.reduceEq, reduceIte]
      rw [assocSet_eq_append _ _ _ hk_notin]
      simp [costM]
    | cons kv2 t =>
      simp only [membersEnc, memberEnc, encodeJStringL, List.cons_append,
        List.append_assoc, List.singleton_append]
      rw [parseMembers]
      simp only [Char.reduceEq, reduceIte, parseStringLoop_escList, List.reverse_nil,
        List.nil_append, string_mk_data]
      rw [skipWs_cons _ _ (by decide)]
      simp only [Char.reduceEq, reduceIte]
      have hv := HV kv (by simp) (',' :: (membersEnc encV (kv2 :: t) ++ '\x7d' :: rest))
        (1 + (costM costV (kv2 :: t) + f))
      simp only [List.append_assoc, List.cons_append] at hv ⊢
      rw [HW kv (by simp), hv]
      dsimp only
      rw [skipWs_cons _ _ (by decide)]
      simp only [Char.reduceEq, reduceIte]
      rw [skipWs_membersEnc encV (kv2 :: t) (by simp)]
      have harith : costV kv.2 + (1 + (costM costV (kv2 :: t) + f)) =
          costM costV (kv2 :: t) + (costV kv.2 + 1 + f) := by omega
      rw [harith]
      have hnd' : ((assocSet acc kv.1 (jV kv.2)).map Prod.fst ++
          (kv2 :: t).map Prod.fst).Nodup := by
        rw [assocSet_eq_append _ _ _ hk_notin]
        simpa using hnd
      rw [ihl (fun kv2 h => HV kv2 (by simp [h])) (fun kv2 h => HW kv2 (by simp [h]))
        (assocSet acc kv.1 (jV kv.2)) rest (costV kv.2 + 1 + f) (by simp) hnd']
      rw [assocSet_eq_append _ _ _ hk_notin]
      simp

/-- Fuel needed by `parseValue` on an encoded entry. -/
def costEntry (e : Entry) : Nat := costM (fun _ => 1) (sortPairs e) + 1

/-- Fuel needed by `parseValue` on an encoded database. -/
def costDb (d : Database) : Nat := costM costEntry (sortPairs d) + 1

theorem skipWs_encodeJStringL (s : String) (r : List Char) :
    skipWs (encodeJStringL s ++ r) = encodeJStringL s ++ r := by
  simp only [encodeJStringL, List.cons_append]
  exact skipWs_cons _ _ (by decide)

theorem skipWs_encodeEntryL (e : Entry) (r : List Char) :
    skipWs (encodeEntryL e ++ r) = encodeEntryL e ++ r := by
  simp only [encodeEntryL, List.cons_append]
  exact skipWs_cons _ _ (by decide)

theorem membersEnc_cons_head {α : Type} (encV : α → List Char) (kv : String × α)
    (t : List (String × α)) :
    ∃ xs, membersEnc encV (kv :: t) = '"' :: xs := by
  cases t <;> simp [membersEnc, memberEnc, encodeJStringL]

theorem parseValue_obj {α : Type} (encV : α → List Char) (jV : α → Json)
    (costV : α → Nat) (l : List (String × α))
    (HV : ∀ kv ∈ l, ∀ (rest : List Char) (f : Nat),
      parseValue (costV kv.2 + f) (encV kv.2 ++ rest) = some (jV kv.2, rest))
    (HW : ∀ kv ∈ l, ∀ (r : List Char), skipWs (encV kv.2 ++ r) = encV kv.2 ++ r)
    (hne : l ≠ []) (hnd : (l.map Prod.fst).Nodup) (rest : List Char) (f : Nat) :
    parseValue ((costM costV l + f) + 1)
        ('\x7b' :: (membersEnc encV l ++ '\x7d' :: rest)) =
      some (.obj (l.map fun kv => (kv.1, jV kv.2)), rest) := by
  match l, hne with
  | kv :: t, _ =>
    obtain ⟨xs, hxs⟩ := membersEnc_cons_head encV kv t
    have hmm := parseMembers_membersEnc encV jV costV (kv :: t) HV HW [] rest f
      (by simp) (by simpa using hnd)
    rw [parseValue]
    simp only [Char.reduceEq, reduceIte]
    rw [skipWs_membersEnc encV (kv :: t) (by simp), hxs]
    simp only [List.cons_append]
    try dsimp only
    simp only [Char.reduceEq, reduceIte]
    rw [hxs] at hmm
    simp only [List.cons_append, List.nil_append] at hmm
    rw [hmm]

theorem parseValue_encodeEntry (e : Entry) (nd : (e.map Prod.fst).Nodup)
    (rest : List Char) (f : Nat) :
    parseValue (costEntry e + f) (encodeEntryL e ++ rest) =
      some (entryToJson (sortPairs e), rest) := by
  have hnd : ((sortPairs e).map Prod.fst).Nodup := sortPairs_keys_nodup e nd
  rw [encodeEntryL]
  simp only [List.cons_append, List.append_assoc, List.singleton_append, List.nil_append]
  cases hse : sortPairs e with
  | nil =>
    have hc : costEntry e + f = f + 1 := by
      unfold costEntry
      rw [hse, costM_nil]
      omega
    rw [hc, parseValue]
    simp only [membersEnc, List.nil_append]
    rw [skipWs_cons _ _ (by decide)]
    simp only [Char.reduceEq, reduceIte]
    rfl
  | cons kv t =>
    have hc : costEntry e + f = (costM (fun _ => 1) (kv :: t) + f) + 1 := by
      unfold costEntry
      rw [hse]
      omega
    rw [hc]
    rw [parseValue_obj encodeJStringL (fun v => .str v) (fun _ => 1) (kv :: t)
      (fun kv _ rest f => parseValue_jstring kv.2 rest f)
      (fun kv _ r => skipWs_encodeJStringL kv.2 r)
      (by simp) (hse ▸ hnd) rest f]
    rfl

theorem parseValue_encodeDb (d : Database) (wf : WFdb d)
    (rest : List Char) (f : Nat) :
    parseValue (costDb d + f) (encodeDbL d ++ rest) =
      some (dbToJson (canonDb d), rest) := by
  have hnd : ((sortPairs d).map Prod.fst).Nodup := sortPairs_keys_nodup d wf.1
  have HV : ∀ kv ∈ sortPairs d, ∀ (rest : List Char) (f : Nat),
      parseValue (costEntry kv.2 + f) (encodeEntryL kv.2 ++ rest) =
        some (entryToJson (sortPairs kv.2), rest) := by
    intro kv hm rest f
    exact parseValue_encodeEntry kv.2 (wf.2 kv ((sortPairs_perm d).mem_iff.mp hm)) rest f
  rw [encodeDbL]
  simp only [List.cons_append, List.append_assoc, List.singleton_append, List.nil_append]
  cases hsd : sortPairs d with
  | nil =>
    have hc : costDb d + f = f + 1 := by
      unfold costDb
      rw [hsd, costM_nil]
      omega
    rw [hc, parseValue]
    simp only [membersEnc, List.nil_append]
    rw [skipWs_cons _ _ (by decide)]
    simp only [Char.reduceEq, reduceIte]
    simp [canonDb, dbToJson, hsd]
  | cons kv t =>
    have hc : costDb d + f = (costM costEntry (kv :: t) + f) + 1 := by
      unfold costDb
      rw [hsd]
      omega
    rw [hc]
    rw [parseValue_obj encodeEntryL (fun e => entryToJson (sortPairs e)) costEntry (kv :: t)
      (hsd ▸ HV) (fun kv _ r => skipWs_encodeEntryL kv.2 r)
      (by simp) (hsd ▸ hnd) rest f]
    simp [dbToJson, canonDb, hsd, List.map_map, Function.comp]

theorem encodeJStringL_length (s : String) : 2 ≤ (encodeJStringL s).length := by
  simp [encodeJStringL]

theorem memberEnc_length {α : Type} (encV : α → List Char) (kv : String × α) :
    3 + (encV kv.2).length ≤ (memberEnc encV kv).length := by
  have := encodeJStringL_length kv.1
  simp only [memberEnc, List.length_append, List.length_cons]
  omega

theorem costM_le {α : Type} (costV : α → Nat) (encV : α → List Char) :
    ∀ (l : List (String × α)), (∀ kv ∈ l, costV kv.2 ≤ 3 * (encV kv.2).length) →
      costM costV l ≤ 3 * (membersEnc encV l).length + 1 := by
  intro l
  induction l with
  | nil => intro _; simp [costM, membersEnc]
  | cons kv t iht =>
    intro h
    cases t with
    | nil =>
      have h1 := h kv (by simp)
      have h2 := memberEnc_length encV kv
      simp only [costM_cons, costM_nil, membersEnc]
      omega
    | cons kv2 t2 =>
      have h1 := h kv (by simp)
      have h2 := memberEnc_length encV kv
      have h3 := iht (fun kv hm => h kv (by simp [hm]))
      rw [costM_cons]
      simp only [membersEnc, List.length_append, List.length_cons] at h3 ⊢
      omega

theorem costEntry_le (e : Entry) : costEntry e ≤ 3 * (encodeEntryL e).length := by
  have h := costM_le (fun _ => 1) encodeJStringL (sortPairs e)
    (fun kv _ => by
      show (1 : Nat) ≤ 3 * (encodeJStringL kv.2).length
      have := encodeJStringL_length kv.2
      omega)
  simp only [costEntry, encodeEntryL, List.length_append, List.length_cons]
  omega

theorem costDb_le (d : Database) : costDb d ≤ 3 * (encodeDbL d).length + 8 := by
  have h := costM_le costEntry encodeEntryL (sortPairs d)
    (fun kv _ => costEntry_le kv.2)
  simp only [costDb, encodeDbL, List.length_append, List.length_cons]
  omega

/-- Round trip of the canonical encoding through the `json.loads` model:
decoding the canonical encoding of a well-formed database recovers exactly
the image of its canonical (key-sorted) form. -/
theorem jsonLoads_encodeDb (d : Database) (wf : WFdb d) :
    jsonLoads (encodeDb d) = some (dbToJson (canonDb d)) := by
  obtain ⟨f₀, hf⟩ := Nat.le.dest (costDb_le d)
  have hdata : (encodeDb d).data = encodeDbL d := rfl
  have hsk : skipWs (encodeDbL d) = encodeDbL d := by
    rw [encodeDbL]
    exact skipWs_cons _ _ (by decide)
  have hp : parseValue (3 * (encodeDbL d).length + 8) (encodeDbL d) =
      some (dbToJson (canonDb d), []) := by
    rw [← hf, ← List.append_nil (encodeDbL d)]
    have := parseValue_encodeDb d wf [] f₀
    simpa using this
  rw [jsonLoads, hdata, hsk, hp]
  rfl

/-! ## From decoded JSON back to databases -/

theorem toEntry_entryToJson (e : Entry) : toEntry (entryToJson e) = some e := by
  induction e with
  | nil => rfl
  | cons kv t ih =>
    simp only [entryToJson, List.map_cons, toEntry, List.foldr_cons] at ih ⊢
    rw [ih]

theorem toDatabase_dbToJson (d : Database) : toDatabase (dbToJson d) = some d := by
  induction d with
  | nil => rfl
  | cons kv t ih =>
    simp only [dbToJson, List.map_cons, toDatabase, List.foldr_cons] at ih ⊢
    rw [ih, toEntry_entryToJson]

/-! ## Lookup equivalence of the canonical form -/

theorem assocGet_eq_some_mem {β α : Type} [DecidableEq β] {l : List (β × α)}
    {k : β} {v : α} (h : assocGet l k = some v) : (k, v) ∈ l := by
  induction l with
  | nil => simp [assocGet] at h
  | cons kv t ih =>
    by_cases hk : kv.1 = k
    · rw [assocGet, if_pos hk] at h
      obtain rfl : kv.2 = v := by injection h
      subst hk
      exact List.mem_cons_self kv t
    · rw [assocGet, if_neg hk] at h
      exact List.mem_cons_of_mem _ (ih h)

/-- Nested lookup `contents.get(k).get(f)`. -/
def dbLookup (d : Database) (k f : String) : Option String :=
  (assocGet d k).bind fun e => assocGet e f

/-- Equality of two databases as Python mappings (`dict.__eq__` is
order-insensitive at both levels): the same entry names are present, and
every nested lookup agrees. -/
def DbEquiv (d₁ d₂ : Database) : Prop :=
  (∀ k, (assocGet d₁ k).isSome = (assocGet d₂ k).isSome) ∧
  (∀ k f, dbLookup d₁ k f = dbLookup d₂ k f)

theorem assocGet_canonDb (d : Database) (wf : WFdb d) (k : String) :
    assocGet (canonDb d) k = (assocGet d k).map sortPairs := by
  rw [canonDb, assocGet_map_value, assocGet_sortPairs d k wf.1]

theorem canonDb_equiv (d : Database) (wf : WFdb d) : DbEquiv (canonDb d) d := by
  constructor
  · intro k
    rw [assocGet_canonDb d wf k]
    cases assocGet d k <;> rfl
  · intro k f
    rw [dbLookup, dbLookup, assocGet_canonDb d wf k]
    cases hke : assocGet d k with
    | none => rfl
    | some e =>
      simp only [Option.map_some', Option.some_bind]
      exact assocGet_sortPairs e f (wf.2 (k, e) (assocGet_eq_some_mem hke))

/-! ## Store-level helper lemmas -/

theorem openBox_sealBox (key : Key) (n : Nat) (pt : String) :
    openBox key (sealBox key n pt) = some pt := by
  simp [openBox, sealBox]

theorem SyncInv_persist (pm : PasswordManager) (c : Database) (n : Nat) :
    SyncInv (PasswordManager.persist pm c n) := by
  simp [SyncInv, PasswordManager.persist, openBox, sealBox]

theorem encodeDb_nil : encodeDb [] = "\x7b\x7d" := rfl

theorem heapSet_assocGet (h : Heap) (r : Nat) (k : String) (e : Entry) :
    assocGet (heapSet h r k e) r = (assocGet h r).map fun d => assocSet d k e := by
  induction h with
  | nil => rfl
  | cons obj t ih =>
    by_cases hr : obj.1 = r
    · simp [heapSet, assocGet, hr]
    · simp only [heapSet, List.map_cons, if_neg hr] at ih ⊢
      rw [assocGet, if_neg hr, assocGet, if_neg hr, ih]

/-! ## The claims -/

/-- C1: for every successful mutating operation (`create`, `update` or
`delete`) on a store whose on-disk blob is in sync with its in-memory
contents, at the moment the call returns the file at `database_path`
decrypts under the store's key to exactly the canonical JSON encoding of
the in-memory contents.  (`create` and `update` re-establish the invariant
unconditionally; a `delete` answered with anything but yes performs no
write and preserves it.) -/
theorem c1_mutations_preserve_sync (pm pm' : PasswordManager) (h : SyncInv pm) :
    (∀ (k : String) (v : Option Entry) (pw : String) (ins : List String) (n : Nat),
      PasswordManager.create pm k v pw ins n = some (pm', none) → SyncInv pm') ∧
    (∀ (k : String) (v : Option Entry) (pw : String) (ins : List String) (n : Nat),
      PasswordManager.update pm k v pw ins n = some (pm', none) → SyncInv pm') ∧
    (∀ (k reply : String) (i : Bool) (n : Nat),
      PasswordManager.delete pm k i reply n = (pm', none) → SyncInv pm') := by
  refine ⟨?_, ?_, ?_⟩
  · intro k v pw ins n hc
    unfold PasswordManager.create at hc
    by_cases hex : (assocGet pm.contents k).isSome
    · rw [if_pos hex] at hc
      simp at hc
    · rw [if_neg hex] at hc
      cases v with
      | some v =>
        simp only [Option.some.injEq, Prod.mk.injEq] at hc
        rw [← hc.1]
        exact SyncInv_persist pm _ n
      | none =>
        cases hrev : PasswordManager.read_entry_value pw ins with
        | none => rw [hrev] at hc; simp at hc
        | some e =>
          rw [hrev] at hc
          simp only [Option.map_some', Option.some.injEq, Prod.mk.injEq] at hc
          rw [← hc.1]
          exact SyncInv_persist pm _ n
  · intro k v pw ins n hc
    unfold PasswordManager.update at hc
    by_cases hex : (assocGet pm.contents k).isNone
    · rw [if_pos hex] at hc
      simp at hc
    · rw [if_neg hex] at hc
      cases v with
      | some v =>
        simp only [Option.some.injEq, Prod.mk.injEq] at hc
        rw [← hc.1]
        exact SyncInv_persist pm _ n
      | none =>
        cases hrev : PasswordManager.read_entry_value pw ins with
        | none => rw [hrev] at hc; simp at hc
        | some e =>
          rw [hrev] at hc
          simp only [Option.map_some', Option.some.injEq, Prod.mk.injEq] at hc
          rw [← hc.1]
          exact SyncInv_persist pm _ n
  · intro k reply i n hd
    unfold PasswordManager.delete at hd
    by_cases hex : (assocGet pm.contents k).isNone
    · rw [if_pos hex] at hd
      simp at hd
    · rw [if_neg hex] at hd
      by_cases haff : (strLower (if i then reply else "y") = "yes" ∨
          strLower (if i then reply else "y") = "y")
      · rw [if_pos haff] at hd
        simp only [Prod.mk.injEq] at hd
        rw [← hd.1]
        exact SyncInv_persist pm _ n
      · rw [if_neg haff] at hd
        simp only [Prod.mk.injEq] at hd
        rw [← hd.1]
        exact h

/-- Witness for C1 at a concrete store and `create` call. -/
theorem c1_witness :
    SyncInv
      ⟨⟨"pw"⟩, [("Google", [("Username", "Alice"), ("Password", "1234")])],
        sealBox ⟨"pw"⟩ 7
          (encodeDb [("Google", [("Username", "Alice"), ("Password", "1234")])])⟩ :=
  (c1_mutations_preserve_sync
      ⟨⟨"pw"⟩, [], sealBox ⟨"pw"⟩ 0 (encodeDb [])⟩
      ⟨⟨"pw"⟩, [("Google", [("Username", "Alice"), ("Password", "1234")])],
        sealBox ⟨"pw"⟩ 7
          (encodeDb [("Google", [("Username", "Alice"), ("Password", "1234")])])⟩
      (by decide)).1
    "Google" (some [("Username", "Alice"), ("Password", "1234")]) "" [] 7 rfl

/-- C2: for every well-formed database D and passphrase P, sealing the
canonical encoding of D under the key derived from P and opening it with
that key returns the encoding unchanged; decoding recovers the canonical
(key-sorted) form of D, which is equal to D as a mapping at both levels;
and constructing a second `PasswordManager` on a path holding that blob
with the same passphrase yields exactly those decoded contents. -/
theorem c2_roundtrip (D : Database) (P : String) (n : Nat) (hWF : WFdb D) :
    openBox (deriveKey P) (sealBox (deriveKey P) n (encodeDb D)) = some (encodeDb D) ∧
    jsonLoads (encodeDb D) = some (dbToJson (canonDb D)) ∧
    toDatabase (dbToJson (canonDb D)) = some (canonDb D) ∧
    DbEquiv (canonDb D) D ∧
    (∀ n' : Nat,
      PasswordManager.init (some P) "" (some (sealBox (deriveKey P) n (encodeDb D))) n' =
        .ok (deriveKey P, sealBox (deriveKey P) n (encodeDb D), dbToJson (canonDb D))) := by
  refine ⟨openBox_sealBox _ _ _, jsonLoads_encodeDb D hWF, toDatabase_dbToJson _,
    canonDb_equiv D hWF, ?_⟩
  intro n'
  unfold PasswordManager.init PasswordManager.initWithKey
  dsimp only
  rw [openBox_sealBox]
  dsimp only
  rw [jsonLoads_encodeDb D hWF]

/-- Witness for C2 at the concrete database of the repository's tests. -/
theorem c2_witness :
    jsonLoads (encodeDb [("Google", [("Password", "1234"), ("Username", "Alice")])]) =
      some (dbToJson (canonDb [("Google", [("Password", "1234"), ("Username", "Alice")])])) :=
  (c2_roundtrip [("Google", [("Password", "1234"), ("Username", "Alice")])] "1234" 0
    (by decide)).2.1

/-- C3: failed mutations are atomic.  `create` on a present name returns
with the `EntryExistsError` and the state — in-memory contents and the
on-disk blob alike — exactly as before (no write); `update`, `delete` and
`read` with an absent name return with the `EntryDoesNotExistError` and the
state exactly as before. -/
theorem c3_failed_mutations_atomic (pm : PasswordManager) (k : String) :
    ((assocGet pm.contents k).isSome = true →
      ∀ (v : Option Entry) (pw : String) (ins : List String) (n : Nat),
        PasswordManager.create pm k v pw ins n = some (pm, some (.entryExists k))) ∧
    (assocGet pm.contents k = none →
      (∀ (v : Option Entry) (pw : String) (ins : List String) (n : Nat),
        PasswordManager.update pm k v pw ins n = some (pm, some (.entryDoesNotExist k))) ∧
      (∀ (reply : String) (i : Bool) (n : Nat),
        PasswordManager.delete pm k i reply n = (pm, some (.entryDoesNotExist k))) ∧
      PasswordManager.read pm (some k) = (pm, .error (.entryDoesNotExist k))) := by
  constructor
  · intro hex v pw ins n
    unfold PasswordManager.create
    rw [if_pos hex]
  · intro hab
    have hnone : (assocGet pm.contents k).isNone = true := by
      rw [hab]; rfl
    refine ⟨?_, ?_, ?_⟩
    · intro v pw ins n
      unfold PasswordManager.update
      rw [if_pos hnone]
    · intro reply i n
      unfold PasswordManager.delete
      rw [if_pos hnone]
    · unfold PasswordManager.read
      dsimp only
      rw [hab]

/-- Witness for C3: the existing-name and absent-name failures at a
concrete store. -/
theorem c3_witness :
    PasswordManager.create
        ⟨⟨"pw"⟩, [("Google", [("Password", "1234")])], sealBox ⟨"pw"⟩ 0 "b"⟩
        "Google" (some [("Password", "5678")]) "" [] 3 =
      some (⟨⟨"pw"⟩, [("Google", [("Password", "1234")])], sealBox ⟨"pw"⟩ 0 "b"⟩,
        some (.entryExists "Google")) ∧
    PasswordManager.read
        ⟨⟨"pw"⟩, [("Google", [("Password", "1234")])], sealBox ⟨"pw"⟩ 0 "b"⟩
        (some "Microsoft") =
      (⟨⟨"pw"⟩, [("Google", [("Password", "1234")])], sealBox ⟨"pw"⟩ 0 "b"⟩,
        .error (.entryDoesNotExist "Microsoft")) :=
  ⟨(c3_failed_mutations_atomic
      ⟨⟨"pw"⟩, [("Google", [("Password", "1234")])], sealBox ⟨"pw"⟩ 0 "b"⟩ "Google").1
      (by decide) (some [("Password", "5678")]) "" [] 3,
    ((c3_failed_mutations_atomic
      ⟨⟨"pw"⟩, [("Google", [("Password", "1234")])], sealBox ⟨"pw"⟩ 0 "b"⟩ "Microsoft").2
      (by decide)).2.2⟩

/-- C4 counterexample: the claim that `delete` removes the entry
unconditionally once called (no confirmation step of its own) is false.
With the default `interactive=True`, `delete` itself prompts
`'Are you sure ...'`; at the concrete store below, answering `"n"` makes
the call return successfully with the entry still present and no write
performed. -/
theorem c4_counterexample :
    ¬ (∀ (pm pm' : PasswordManager) (k reply : String) (i : Bool) (n : Nat),
        (assocGet pm.contents k).isSome = true →
        PasswordManager.delete pm k i reply n = (pm', none) →
        assocGet pm'.contents k = none) := by
  intro h
  have := h ⟨⟨"pw"⟩, [("Google", [("Password", "1234")])], sealBox ⟨"pw"⟩ 0 "b"⟩
    ⟨⟨"pw"⟩, [("Google", [("Password", "1234")])], sealBox ⟨"pw"⟩ 0 "b"⟩
    "Google" "n" true 0 (by decide) (by decide)
  simp [assocGet] at this

/-- C4 as amended: with `interactive=False` (the GUI path) `delete` removes
the entry and persists unconditionally, so the entry is absent afterwards;
with `interactive=True` (the default, used by the CLI) the store itself
asks for confirmation and, unless the reply lowercases to `"y"` or
`"yes"`, returns successfully with the state (memory and file) unchanged. -/
theorem c4_delete_confirmation (pm : PasswordManager) (k reply : String) (n : Nat)
    (hp : (assocGet pm.contents k).isSome = true)
    (hnd : (pm.contents.map Prod.fst).Nodup) :
    PasswordManager.delete pm k false reply n =
      (PasswordManager.persist pm (assocDel pm.contents k) n, none) ∧
    assocGet (PasswordManager.delete pm k false reply n).1.contents k = none ∧
    (strLower reply ≠ "y" → strLower reply ≠ "yes" →
      PasswordManager.delete pm k true reply n = (pm, none)) ∧
    ((strLower reply = "y" ∨ strLower reply = "yes") →
      PasswordManager.delete pm k true reply n =
        (PasswordManager.persist pm (assocDel pm.contents k) n, none)) := by
  have hnone : (assocGet pm.contents k).isNone = false := by
    cases h : assocGet pm.contents k
    · rw [h] at hp; simp at hp
    · rfl
  have hdel : PasswordManager.delete pm k false reply n =
      (PasswordManager.persist pm (assocDel pm.contents k) n, none) := by
    unfold PasswordManager.delete
    rw [if_neg (by simp [hnone]), if_pos (by right; rfl)]
  refine ⟨hdel, ?_, ?_, ?_⟩
  · rw [hdel]
    exact assocGet_del_self pm.contents k hnd
  · intro h1 h2
    unfold PasswordManager.delete
    rw [if_neg (by simp [hnone]), if_neg (by simp [h1, h2])]
  · intro haff
    unfold PasswordManager.delete
    rw [if_neg (by simp [hnone]), if_pos (by simpa [or_comm] using haff)]

/-- Witness for C4 (amended) at a concrete store. -/
theorem c4_witness :
    PasswordManager.delete
        ⟨⟨"pw"⟩, [("Google", [("Password", "1234")])], sealBox ⟨"pw"⟩ 0 "b"⟩
        "Google" true "n" 5 =
      (⟨⟨"pw"⟩, [("Google", [("Password", "1234")])], sealBox ⟨"pw"⟩ 0 "b"⟩, none) :=
  ((c4_delete_confirmation
      ⟨⟨"pw"⟩, [("Google", [("Password", "1234")])], sealBox ⟨"pw"⟩ 0 "b"⟩
      "Google" "n" 5 (by decide) (by decide)).2.2.1 (by decide) (by decide))

/-- C5 counterexample: the claim that an empty passphrase always fails with
the empty-passphrase error before touching anything, and never yields a
usable store, is false.  An explicitly supplied empty passphrase (the GUI
path, `PasswordWindow.run`, line 307) is not checked: on a fresh path the
constructor derives a key from `''`, creates the database file and returns
a usable store with empty contents. -/
theorem c5_counterexample :
    PasswordManager.init (some "") "ignored" none 0 =
      .ok (deriveKey "", sealBox (deriveKey "") 0 "\x7b\x7d", Json.obj []) ∧
    toDatabase (Json.obj []) = some [] :=
  ⟨rfl, rfl⟩

/-- C5 as amended: the empty-passphrase rejection exists only on the CLI
prompt path.  When the password argument is `None` and the `getpass` prompt
returns the empty string, `__init__` exits with the empty-passphrase error
before deriving a key or touching the file; an explicitly supplied empty
passphrase is not rejected, and on a fresh path yields a usable store. -/
theorem c5_empty_passphrase (existing : Option Sealed) (n : Nat) :
    PasswordManager.init none "" existing n = .error .emptyPassword ∧
    PasswordManager.init (some "") "" none n =
      .ok (deriveKey "", sealBox (deriveKey "") n "\x7b\x7d", Json.obj []) :=
  ⟨rfl, rfl⟩

/-- C6: the persisted plaintext is canonical.  Concretely (the repository's
own test vector) a single entry `Google` with `Username`/`Password` fields
encodes to exactly the compact JSON with fields sorted; and the encoding of
a dict (at either level) is invariant under permutation of its items — the
byte sequence depends only on the mapping. -/
theorem c6_canonical_encoding :
    encodeDb [("Google", [("Username", "Alice"), ("Password", "1234")])] =
      "\x7b\"Google\":\x7b\"Password\":\"1234\",\"Username\":\"Alice\"\x7d\x7d" ∧
    (∀ (e₁ e₂ : Entry), e₁.Perm e₂ → (e₁.map Prod.fst).Nodup →
      encodeEntryL e₁ = encodeEntryL e₂) ∧
    (∀ (d₁ d₂ : Database), d₁.Perm d₂ → (d₁.map Prod.fst).Nodup →
      encodeDb d₁ = encodeDb d₂) := by
  refine ⟨by decide, ?_, ?_⟩
  · intro e₁ e₂ hp hnd
    unfold encodeEntryL
    rw [sortPairs_eq_of_perm hp hnd]
  · intro d₁ d₂ hp hnd
    unfold encodeDb encodeDbL
    rw [sortPairs_eq_of_perm hp hnd]

/-- Witness for C6: permutation invariance at a concrete two-entry store. -/
theorem c6_witness :
    encodeDb [("Google", [("Password", "1")]), ("Apple", [("Password", "2")])] =
      encodeDb [("Apple", [("Password", "2")]), ("Google", [("Password", "1")])] :=
  c6_canonical_encoding.2.2 _ _ (by decide) (by decide)

/-- C7 counterexample: the claim that decoding fails on every decrypted
byte sequence that is not a valid `Database` encoding is false.  The code
never validates the shape of `json.loads`'s result: a blob whose plaintext
is `[]` (valid JSON, not a mapping of mappings) is accepted without any
error, yielding a store whose contents are not a database. -/
theorem c7_counterexample :
    PasswordManager.init (some "p") "" (some (sealBox (deriveKey "p") 0 "[]")) 1 =
      .ok (deriveKey "p", sealBox (deriveKey "p") 0 "[]", Json.arr []) ∧
    toDatabase (Json.arr []) = none :=
  ⟨rfl, rfl⟩

/-- C7 as amended: during `open`, decoding fails — with an uncaught
`json.JSONDecodeError`, there is no malformed-database error class — exactly
when the decrypted plaintext is not valid JSON; any valid JSON value,
database-shaped or not, is accepted without validation and becomes the
store's contents. -/
theorem c7_decode_no_validation (P pt : String) (n n' : Nat) :
    (jsonLoads pt = none →
      PasswordManager.init (some P) "" (some (sealBox (deriveKey P) n pt)) n' =
        .error .jsonError) ∧
    (∀ j, jsonLoads pt = some j →
      PasswordManager.init (some P) "" (some (sealBox (deriveKey P) n pt)) n' =
        .ok (deriveKey P, sealBox (deriveKey P) n pt, j)) := by
  constructor
  · intro h
    unfold PasswordManager.init PasswordManager.initWithKey
    dsimp only
    rw [openBox_sealBox]
    dsimp only
    rw [h]
  · intro j h
    unfold PasswordManager.init PasswordManager.initWithKey
    dsimp only
    rw [openBox_sealBox]
    dsimp only
    rw [h]

/-- Witness for C7 (amended): invalid JSON plaintext makes `__init__` die
with the JSON error. -/
theorem c7_witness :
    PasswordManager.init (some "p") "" (some (sealBox (deriveKey "p") 0 "nope")) 1 =
      .error .jsonError :=
  (c7_decode_no_validation "p" "nope" 0 1).1 rfl

/-- C8 counterexample: the claim that `read()` with no name returns a
copy/view whose mutation cannot change the store's state is false.  Line 86
executes `return self.contents`, handing out the store's own dict object.
In the concrete world below (one dict object, reference 0, value the empty
database), assigning through the returned reference changes the value the
store's `self.contents` points to. -/
theorem c8_counterexample :
    ¬ (assocGet (heapSet [(0, ([] : Database))] (PyPM.readFull ⟨0⟩) "Google"
          [("Password", "x")]) (0 : Nat) = some ([] : Database)) := by
  decide

/-- C8 as amended: `read` is a pure query — it performs no write and
returns the state unchanged — but with no name it returns `self.contents`
itself (the same object reference, not a copy), so a caller mutation
through the returned reference is a mutation of the store's own contents. -/
theorem c8_read_pure_but_alias (pm : PasswordManager) (sel : Option String)
    (h : Heap) (w : PyPM) (k : String) (e : Entry) :
    (PasswordManager.read pm sel).1 = pm ∧
    PyPM.readFull w = w.contentsRef ∧
    assocGet (heapSet h (PyPM.readFull w) k e) w.contentsRef =
      (assocGet h w.contentsRef).map fun d => assocSet d k e := by
  refine ⟨?_, rfl, heapSet_assocGet h w.contentsRef k e⟩
  cases sel with
  | none => rfl
  | some k2 =>
    unfold PasswordManager.read
    dsimp only
    cases assocGet pm.contents k2 <;> rfl

/-- C9: `read` with a present name returns the singleton dict
`{name: entry}` wrapping the entry under its name, not the bare
field-to-value mapping. -/
theorem c9_read_wraps_singleton (pm : PasswordManager) (k : String) (e : Entry)
    (h : assocGet pm.contents k = some e) :
    PasswordManager.read pm (some k) = (pm, .ok [(k, e)]) := by
  unfold PasswordManager.read
  dsimp only
  rw [h]

/-- Witness for C9 at a concrete store. -/
theorem c9_witness :
    PasswordManager.read
        ⟨⟨"pw"⟩, [("Google", [("Password", "1234")]), ("Apple", [("Password", "5")])],
          sealBox ⟨"pw"⟩ 0 "b"⟩ (some "Google") =
      (⟨⟨"pw"⟩, [("Google", [("Password", "1234")]), ("Apple", [("Password", "5")])],
          sealBox ⟨"pw"⟩ 0 "b"⟩,
        .ok [("Google", [("Password", "1234")])]) :=
  c9_read_wraps_singleton _ "Google" [("Password", "1234")] rfl

theorem read_entry_value_go_password :
    ∀ (inputs : List String) (acc e : Entry),
      PasswordManager.read_entry_value.go acc inputs = some e →
      assocGet e "Password" = assocGet acc "Password"
  | [], _, _ => fun h => by simp [PasswordManager.read_entry_value.go] at h
  | name :: rest, acc, e => fun h => by
    rw [PasswordManager.read_entry_value.go.eq_def] at h
    dsimp only at h
    by_cases h1 : name = ""
    · rw [if_pos h1] at h
      injection h with h
      rw [h]
    · rw [if_neg h1] at h
      by_cases h2 : name = "Password"
      · rw [if_pos h2] at h
        exact read_entry_value_go_password rest acc e h
      · rw [if_neg h2] at h
        cases rest with
        | nil => simp at h
        | cons defn rest2 =>
          dsimp only at h
          by_cases h3 : defn = ""
          · rw [if_pos h3] at h
            injection h with h
            rw [h]
          · rw [if_neg h3] at h
            rw [read_entry_value_go_password rest2 _ e h]
            exact assocGet_set_ne acc name "Password" defn (Ne.symm h2)

/-- C10: whenever `create` or `update` collects the entry value
interactively via `read_entry_value`, the stored entry always contains a
`"Password"` field, whose value is exactly the `getpass` result: the loop
skips the name `'Password'`, so no subsequently entered field can overwrite
it. -/
theorem c10_interactive_password_field :
    (∀ (pw : String) (inputs : List String) (e : Entry),
      PasswordManager.read_entry_value pw inputs = some e →
      assocGet e "Password" = some pw) ∧
    (∀ (pm pm' : PasswordManager) (k pw : String) (inputs : List String) (n : Nat),
      PasswordManager.create pm k none pw inputs n = some (pm', none) →
      ∃ e, assocGet pm'.contents k = some e ∧ assocGet e "Password" = some pw) ∧
    (∀ (pm pm' : PasswordManager) (k pw : String) (inputs : List String) (n : Nat),
      PasswordManager.update pm k none pw inputs n = some (pm', none) →
      ∃ e, assocGet pm'.contents k = some e ∧ assocGet e "Password" = some pw) := by
  have hrev : ∀ (pw : String) (inputs : List String) (e : Entry),
      PasswordManager.read_entry_value pw inputs = some e →
      assocGet e "Password" = some pw := by
    intro pw inputs e h
    unfold PasswordManager.read_entry_value at h
    rw [read_entry_value_go_password inputs _ e h]
    rfl
  refine ⟨hrev, ?_, ?_⟩
  · intro pm pm' k pw inputs n hc
    unfold PasswordManager.create at hc
    by_cases hex : (assocGet pm.contents k).isSome
    · rw [if_pos hex] at hc
      simp at hc
    · rw [if_neg hex] at hc
      cases he : PasswordManager.read_entry_value pw inputs with
      | none => rw [he] at hc; simp at hc
      | some e =>
        rw [he] at hc
        simp only [Option.map_some', Option.some.injEq, Prod.mk.injEq] at hc
        refine ⟨e, ?_, hrev pw inputs e he⟩
        rw [← hc.1]
        exact assocGet_set_self pm.contents k e
  · intro pm pm' k pw inputs n hc
    unfold PasswordManager.update at hc
    by_cases hex : (assocGet pm.contents k).isNone
    · rw [if_pos hex] at hc
      simp at hc
    · rw [if_neg hex] at hc
      cases he : PasswordManager.read_entry_value pw inputs with
      | none => rw [he] at hc; simp at hc
      | some e =>
        rw [he] at hc
        simp only [Option.map_some', Option.some.injEq, Prod.mk.injEq] at hc
        refine ⟨e, ?_, hrev pw inputs e he⟩
        rw [← hc.1]
        exact assocGet_set_self pm.contents k e

/-- Witness for C10 at a concrete interactive session. -/
theorem c10_witness :
    assocGet [("Password", "s3cret"), ("Username", "Alice")] "Password" = some "s3cret" :=
  c10_interactive_password_field.1 "s3cret" ["Username", "Alice", ""]
    [("Password", "s3cret"), ("Username", "Alice")] rfl
